import Mathlib

/-!
Verification of the Go rules engine (bitboard masks, flood fill, liberties,
capture and the move tree) against its specification.

The development shallowly embeds the Rust sources:
* `src/src/mask_row.rs` — one board row as a `u32` (`MaskRow`);
* `src/src/mask.rs` — the 19-row board mask with `expand_once`, `expand_all`,
  `flood` and `has_a_liberty`;
* `src/src/lib.rs` — the monolithic snapshot holding `Tree::place_stone`,
  `Capture::is_capture`, `State::{set,get,mask_group,remove_group}` and its own
  `Mask::expand`.

Machine integers are modelled as `Nat` with explicit truncation `% 2 ^ 32`
where a `u32` operation can carry past bit 31.  The fixed-point loops of the
source (`expand_all`, `mask_group`) are modelled with an explicit fuel
parameter; a result of `none` means the loop did not stabilize within the
given number of iterations.
-/

namespace GoRules

/-- The number of values of a Rust `u32`; rows of a board mask are `u32`. -/
def wordSize : Nat := 2 ^ 32

/-- The value of `usize::MAX`, the parent sentinel of the root node. -/
def usizeMax : Nat := 2 ^ 64 - 1

/-- Bitwise complement of a `u32` row (`impl Not for MaskRow`). -/
def wnot (r : Nat) : Nat := (wordSize - 1) ^^^ r

/-- Left shift by one of a `u32` row (`impl Shl for MaskRow`): a bit shifted
past position 31 is dropped by the `u32` representation. -/
def shl1 (r : Nat) : Nat := (r <<< 1) % wordSize

/-- Bit test of a row (`MaskRow::get`): `self.0 >> i & 1 == 1`. -/
def rowGet (r i : Nat) : Bool := (r >>> i) &&& 1 == 1

/-- Bit set of a row (`MaskRow::set`): `self.0 |= 1 << i`. -/
def rowSet (r i : Nat) : Nat := r ||| (1 <<< i)

/-- Bit clear of a row (`MaskRow::unset`): `self.0 &= !(1 << i)`. -/
def rowUnset (r i : Nat) : Nat := r &&& wnot (1 <<< i)

/-- Horizontal dilation of a row (`MaskRow::expand`):
`self << 1 | self | self >> 1`, with no masking of bits above position 18. -/
def rowExpand (r : Nat) : Nat := shl1 r ||| r ||| (r >>> 1)

/-- A board mask: nineteen `u32` rows (`Mask` in the sources). -/
abbrev Mask := List Nat

/-- Row access of a board mask. -/
def rowOf (m : Mask) (i : Nat) : Nat := m.getD i 0

/-- The empty board mask (`Mask::EMPTY`). -/
def emptyMask : Mask := List.replicate 19 0

/-- The filled board mask (`Mask::FILLED`): nineteen usable bits per row. -/
def filledMask : Mask := List.replicate 19 (2 ^ 19 - 1)

/-- Bit test of a board mask (`Mask::get`). -/
def maskGet (m : Mask) (x y : Nat) : Bool := rowGet (rowOf m y) x

/-- Bit set of a board mask (`Mask::set`). -/
def maskSet (m : Mask) (x y : Nat) : Mask := m.set y (rowSet (rowOf m y) x)

/-- Bit clear of a board mask (`Mask::unset`). -/
def maskUnset (m : Mask) (x y : Nat) : Mask := m.set y (rowUnset (rowOf m y) x)

/-- One stencil-bounded dilation step (`Mask::expand_once` in `mask.rs`):
row `i` becomes `(row[i-1] | expand(row[i]) | row[i+1]) & stencil[i]`, the
missing vertical neighbour being dropped at rows 0 and 18. -/
def expandOnce (m st : Mask) : Mask :=
  List.ofFn fun i : Fin 19 =>
    if i.val = 0 then
      (rowOf m 1 ||| rowExpand (rowOf m 0)) &&& rowOf st 0
    else if i.val = 18 then
      (rowOf m 17 ||| rowExpand (rowOf m 18)) &&& rowOf st 18
    else
      (rowOf m (i.val - 1) ||| rowExpand (rowOf m i.val) ||| rowOf m (i.val + 1))
        &&& rowOf st i.val

/-- Fuel-bounded run of the fixed-point loop of `Mask::expand_all`:
repeat `expand_once` until an iteration produces no change. -/
def expandAllF : Nat → Mask → Mask → Option Mask
  | 0, _, _ => none
  | fuel + 1, m, st =>
    let next := expandOnce m st
    if next = m then some next else expandAllF fuel next st

/-- Flood fill (`Mask::flood`): seed a single bit and expand to the fixed
point with the flooded mask itself as the stencil. -/
def flood (m : Mask) (x y fuel : Nat) : Option Mask :=
  expandAllF fuel (maskSet emptyMask x y) m

/-- Liberty test (`Mask::has_a_liberty`): one dilation step of the group,
restricted to cells outside the group and outside the opponent mask, tested
row by row for a surviving bit. -/
def hasALiberty (g o : Mask) : Bool :=
  decide (0 < (rowOf g 1 ||| rowExpand (rowOf g 0)) &&& wnot (rowOf g 0) &&& wnot (rowOf o 0))
  || (List.range 17).any (fun j =>
      decide (0 < (rowOf g j ||| rowExpand (rowOf g (j + 1)) ||| rowOf g (j + 2))
        &&& wnot (rowOf g (j + 1)) &&& wnot (rowOf o (j + 1))))
  || decide (0 < (rowOf g 17 ||| rowExpand (rowOf g 18)) &&& wnot (rowOf g 18) &&& wnot (rowOf o 18))

/-- The `n`-fold iterate of `expand_once` under a fixed stencil. -/
def iterExpand (m st : Mask) : Nat → Mask
  | 0 => m
  | n + 1 => expandOnce (iterExpand m st n) st

/-- Stone colors. -/
inductive Color
  | black
  | white
deriving DecidableEq

/-- `Color::opposite`. -/
def Color.opposite : Color → Color
  | .black => .white
  | .white => .black

/-- A board position: one mask per color (`State`). -/
structure State where
  black : Mask
  white : Mask
deriving DecidableEq

/-- `State::get`: black mask first, then white, else empty. -/
def stateGet (s : State) (x y : Nat) : Option Color :=
  if maskGet s.black x y then some .black
  else if maskGet s.white x y then some .white
  else none

/-- `State::set`. -/
def stateSet (s : State) (x y : Nat) : Option Color → State
  | some .black => { s with black := maskSet s.black x y }
  | some .white => { s with white := maskSet s.white x y }
  | none => { black := maskUnset s.black x y, white := maskUnset s.white x y }

/-- The mask of a given color inside a state. -/
def colorMask (s : State) : Color → Mask
  | .black => s.black
  | .white => s.white

/-- The `Mask::expand` of the monolithic `lib.rs` snapshot.  Because `&`
binds tighter than `|` in Rust, the stencil is applied only to the final term
of each row expression, and no term keeps `self[i]` itself. -/
def expandLib (m st : Mask) : Mask :=
  List.ofFn fun i : Fin 19 =>
    if i.val = 0 then
      rowOf m 1 ||| shl1 (rowOf m 0) ||| ((rowOf m 0 >>> 1) &&& rowOf st 0)
    else if i.val = 18 then
      rowOf m 17 ||| shl1 (rowOf m 18) ||| ((rowOf m 18 >>> 1) &&& rowOf st 18)
    else
      rowOf m (i.val - 1) ||| shl1 (rowOf m i.val) ||| (rowOf m i.val >>> 1)
        ||| (rowOf m (i.val + 1) &&& rowOf st i.val)

/-- Fuel-bounded run of the fixed-point loop inside `State::mask_group` of
`lib.rs`: iterate the snapshot's `Mask::expand` until no change. -/
def maskGroupF : Nat → Mask → Mask → Option Mask
  | 0, _, _ => none
  | fuel + 1, m, st =>
    let next := expandLib m st
    if next = m then some m else maskGroupF fuel next st

/-- `State::remove_group` of `lib.rs`: if the cell is occupied, flood its
color's mask from the cell and clear the flooded bits from that mask. -/
def removeGroup (fuel : Nat) (s : State) (x y : Nat) : Option State :=
  match stateGet s x y with
  | none => some s
  | some c =>
    (maskGroupF fuel (maskSet emptyMask x y) (colorMask s c)).map fun g =>
      match c with
      | .black => { s with black := List.zipWith (fun r q => r &&& wnot q) s.black g }
      | .white => { s with white := List.zipWith (fun r q => r &&& wnot q) s.white g }

/-- Short-circuit conjunction over capture probes, threading the `visited`
mask exactly as Rust's `&&` does: a `false` stops the chain and returns the
`visited` mask accumulated so far. -/
def andStep : Option (Bool × Mask) → (Mask → Option (Bool × Mask)) → Option (Bool × Mask)
  | none, _ => none
  | some (b, v), k => if b then k v else some (false, v)

/-- `Capture::is_capture` of `lib.rs`: a depth-first probe over the shared
`visited` mask.  A cell is reported capturing when it is already visited, when
it holds an attacker stone, or when it holds a defender stone all four
neighbours of which recursively report capturing. -/
def isCaptureF : Nat → State → Color → Mask → Nat → Nat → Option (Bool × Mask)
  | 0, _, _, _, _, _ => none
  | fuel + 1, st, cap, vis, x, y =>
    if maskGet vis x y then some (true, vis) else
    if maskGet (colorMask st cap) x y then some (true, maskSet vis x y) else
    if maskGet (colorMask st cap.opposite) x y then
      andStep (if x = 0 then some (true, maskSet vis x y)
          else isCaptureF fuel st cap (maskSet vis x y) (x - 1) y) fun v1 =>
        andStep (if 18 ≤ x then some (true, v1)
            else isCaptureF fuel st cap v1 (x + 1) y) fun v2 =>
          andStep (if y = 0 then some (true, v2)
              else isCaptureF fuel st cap v2 x (y - 1)) fun v3 =>
            (if 18 ≤ y then some (true, v3) else isCaptureF fuel st cap v3 x (y + 1))
    else some (false, maskSet vis x y)

/-- The four neighbour probes of `Tree::place_stone`, sharing one `visited`
mask in the order left, right, down, up. -/
def probe4 (st : State) (cap : Color) (x y fuel : Nat) : Option (Bool × Bool × Bool × Bool) :=
  (if 0 < x then isCaptureF fuel st cap emptyMask (x - 1) y
      else some (false, emptyMask)).bind fun lv =>
    (if x < 18 then isCaptureF fuel st cap lv.2 (x + 1) y
        else some (false, lv.2)).bind fun rv =>
      (if 0 < y then isCaptureF fuel st cap rv.2 x (y - 1)
          else some (false, rv.2)).bind fun dv =>
        (if y < 18 then isCaptureF fuel st cap dv.2 x (y + 1)
            else some (false, dv.2)).bind fun uv =>
          some (lv.1, rv.1, dv.1, uv.1)

/-- The removal phase of `Tree::place_stone`: for each raised probe flag run
`remove_group` on the corresponding neighbour, in the source order left,
right, up, down. -/
def removalsF (fuel : Nat) (s : State) (x y : Nat) (l r u d : Bool) : Option State :=
  (if l then removeGroup fuel s (x - 1) y else some s).bind fun s1 =>
    (if r then removeGroup fuel s1 (x + 1) y else some s1).bind fun s2 =>
      (if u then removeGroup fuel s2 x (y + 1) else some s2).bind fun s3 =>
        (if d then removeGroup fuel s3 x (y - 1) else some s3)

/-- The suicide test of `Tree::place_stone`: every direction is off-board or
holds a defender stone in the candidate state. -/
def surroundedB (s : State) (dfn : Color) (x y : Nat) : Bool :=
  (decide (x = 0) || decide (stateGet s (x - 1) y = some dfn)) &&
  ((decide (x = 18) || decide (stateGet s (x + 1) y = some dfn)) &&
   ((decide (y = 0) || decide (stateGet s x (y - 1) = some dfn)) &&
    (decide (y = 18) || decide (stateGet s x (y + 1) = some dfn))))

/-- `PlacementMode`. -/
inductive PlacementMode
  | black
  | white
  | toggle
deriving DecidableEq

/-- The outcome of a placement: `Ok(())` or one of the `PlaceStoneError`s. -/
inductive PlaceResult
  | ok
  | alreadyExists
  | selfCapture
  | ko
deriving DecidableEq

/-- A history node (`Node`): a committed state and its parent index. -/
structure Node where
  state : State
  parent : Nat
deriving DecidableEq

/-- The move tree (`Tree`). -/
structure Tree where
  states : List Node
  current : Nat
  toPlay : Color
  placementMode : PlacementMode
deriving DecidableEq

/-- Append a committed node and advance `current` and the color to play. -/
def commitT (t : Tree) (s : State) : Tree :=
  { states := t.states ++ [⟨s, t.current⟩]
    current := t.states.length
    toPlay := if t.placementMode = .toggle then t.toPlay.opposite else t.toPlay
    placementMode := t.placementMode }

/-- The ko check followed by the commit: reject with `Ko` exactly when the
candidate equals the state stored at the given parent index. -/
def koCommit (t : Tree) (parentIdx : Nat) (s : State) : Tree × PlaceResult :=
  match t.states.get? parentIdx with
  | some p => if p.state = s then (t, .ko) else (commitT t s, .ok)
  | none => (commitT t s, .ok)

/-- `Tree::place_stone` of `lib.rs`, fuel-bounded.  `none` models a run that
fails an assertion or whose internal fixed-point loop does not terminate
within `fuel` iterations.  The probe result carries the flags in the order
left, right, down, up; the removal phase runs in the source order left,
right, up, down. -/
def placeStone (t : Tree) (x y fuel : Nat) : Option (Tree × PlaceResult) :=
  if x ≤ 18 ∧ y ≤ 18 then
    (t.states.get? t.current).bind fun node =>
      if maskGet node.state.black x y || maskGet node.state.white x y then
        some (t, .alreadyExists)
      else
        (probe4 (stateSet node.state x y (some t.toPlay)) t.toPlay x y fuel).bind fun fl =>
          if fl.1 || fl.2.1 || fl.2.2.1 || fl.2.2.2 then
            (removalsF fuel (stateSet node.state x y (some t.toPlay)) x y
                fl.1 fl.2.1 fl.2.2.2 fl.2.2.1).bind fun st2 =>
              some (koCommit t node.parent st2)
          else
            if surroundedB (stateSet node.state x y (some t.toPlay)) t.toPlay.opposite x y then
              some (t, .selfCapture)
            else some (koCommit t node.parent (stateSet node.state x y (some t.toPlay)))
  else none

/-- `Tree::current_state`. -/
def currentState (t : Tree) : Option State := (t.states.get? t.current).map Node.state

/-- `Tree::empty`: a single root node holding the empty board, black to play,
toggling placement mode. -/
def emptyTree : Tree := ⟨[⟨⟨emptyMask, emptyMask⟩, usizeMax⟩], 0, .black, .toggle⟩

/-- Cell membership in a board mask, expressed through bit tests. -/
def cellMem (m : Mask) (x y : Nat) : Prop := Nat.testBit (rowOf m y) x = true

instance (m : Mask) (x y : Nat) : Decidable (cellMem m x y) := by
  unfold cellMem; infer_instance

/-- Four-directional adjacency of two cells. -/
def Adj (a b : Nat × Nat) : Prop :=
  (a.1 = b.1 ∧ (a.2 + 1 = b.2 ∨ b.2 + 1 = a.2)) ∨
  (a.2 = b.2 ∧ (a.1 + 1 = b.1 ∨ b.1 + 1 = a.1))

instance (a b : Nat × Nat) : Decidable (Adj a b) := by
  unfold Adj; infer_instance

/-- Connectivity inside a mask: cells reachable from a seed cell of the mask
through chains of four-directionally adjacent mask cells. -/
inductive Reach (M : Mask) (sx sy : Nat) : Nat → Nat → Prop
  | refl : cellMem M sx sy → Reach M sx sy sx sy
  | step {x y x' y' : Nat} : Reach M sx sy x y → Adj (x, y) (x', y') →
      cellMem M x' y' → Reach M sx sy x' y'

/-- A well-formed board mask: nineteen rows, each with its bits above
position 18 clear. -/
def valid19 (m : Mask) : Prop := m.length = 19 ∧ ∀ r ∈ m, r < 2 ^ 19

section BitLemmas

theorem testBit_shl1 (r i : Nat) :
    (shl1 r).testBit i = (decide (i < 32) && (decide (1 ≤ i) && r.testBit (i - 1))) := by
  have h : wordSize = 2 ^ 32 := rfl
  rw [shl1, h, Nat.testBit_mod_two_pow, Nat.testBit_shiftLeft]

theorem testBit_ne_zero {n i : Nat} (h : n.testBit i = true) : n ≠ 0 := by
  intro h0; subst h0; simp [Nat.zero_testBit] at h

theorem exists_testBit {n : Nat} (h : n ≠ 0) : ∃ i, n.testBit i = true := by
  by_contra hc
  push_neg at hc
  exact h (Nat.eq_of_testBit_eq fun i => by
    simp [Nat.zero_testBit]
    simpa using hc i)

theorem rowOf_nil (i : Nat) : rowOf [] i = 0 := by
  simp [rowOf]

theorem rowOf_ge_length {m : Mask} {i : Nat} (h : m.length ≤ i) : rowOf m i = 0 := by
  simp [rowOf, List.getD_eq_getElem?_getD, List.getElem?_eq_none h]

theorem rowOf_ofFn (f : Fin 19 → Nat) (i : Nat) :
    rowOf (List.ofFn f) i = if h : i < 19 then f ⟨i, h⟩ else 0 := by
  rw [rowOf, List.getD_eq_getElem?_getD, List.getElem?_ofFn, List.ofFnNthVal]
  by_cases h : i < 19 <;> simp [h]

theorem rowOf_replicate (v i : Nat) (h : i < 19) : rowOf (List.replicate 19 v) i = v := by
  rw [rowOf, List.getD_eq_getElem?_getD, List.getElem?_replicate]
  simp [h]

theorem rowOf_set {m : Mask} {j : Nat} (v : Nat) (i : Nat) (hj : j < m.length) :
    rowOf (m.set j v) i = if j = i then v else rowOf m i := by
  rw [rowOf, List.getD_eq_getElem?_getD, List.getElem?_set]
  by_cases h : j = i
  · subst h
    simp [hj]
  · simp [h, rowOf, List.getD_eq_getElem?_getD]

theorem testBit_rowSet_zero (x k : Nat) : (rowSet 0 x).testBit k = decide (x = k) := by
  simp [rowSet, Nat.shiftLeft_eq, Nat.testBit_two_pow]

theorem rowOf_seed (x y i : Nat) (hy : y ≤ 18) :
    rowOf (maskSet emptyMask x y) i = if y = i then rowSet 0 x else 0 := by
  have hylen : y < (emptyMask : Mask).length := by
    simp [emptyMask]; omega
  have h0 : rowOf emptyMask y = 0 := rowOf_replicate 0 y (by omega)
  by_cases hi : i < 19
  · rw [maskSet, rowOf_set _ i hylen, h0]
    by_cases hyi : y = i
    · simp [hyi]
    · rw [if_neg hyi, if_neg hyi]
      exact rowOf_replicate 0 i hi
  · have : rowOf (maskSet emptyMask x y) i = 0 := by
      apply rowOf_ge_length
      simp [maskSet, emptyMask]
      omega
    rw [this]
    have : ¬ y = i := by omega
    simp [this]

theorem seed_mem (x y a b : Nat) (hy : y ≤ 18) :
    cellMem (maskSet emptyMask x y) a b ↔ (a = x ∧ b = y) := by
  unfold cellMem
  rw [rowOf_seed x y b hy]
  by_cases hb : y = b
  · simp [hb, testBit_rowSet_zero]
    constructor
    · intro h; omega
    · intro h; omega
  · simp [hb, Nat.zero_testBit]
    omega

end BitLemmas

section DivergeLemmas

/-- All set bits of a mask lie on the checkerboard of parity `p`. -/
def OnPar (m : Mask) (p : Nat) : Prop :=
  ∀ yy xx, (rowOf m yy).testBit xx = true → (xx + yy) % 2 = p

theorem rowOf_expandLib_zero (m st : Mask) :
    rowOf (expandLib m st) 0 =
      rowOf m 1 ||| shl1 (rowOf m 0) ||| ((rowOf m 0 >>> 1) &&& rowOf st 0) := by
  rw [expandLib, rowOf_ofFn]
  simp

theorem rowOf_expandLib_last (m st : Mask) :
    rowOf (expandLib m st) 18 =
      rowOf m 17 ||| shl1 (rowOf m 18) ||| ((rowOf m 18 >>> 1) &&& rowOf st 18) := by
  rw [expandLib, rowOf_ofFn]
  simp

theorem rowOf_expandLib_mid (m st : Mask) {i : Nat} (h1 : 1 ≤ i) (h17 : i ≤ 17) :
    rowOf (expandLib m st) i =
      rowOf m (i - 1) ||| shl1 (rowOf m i) ||| (rowOf m i >>> 1)
        ||| (rowOf m (i + 1) &&& rowOf st i) := by
  rw [expandLib, rowOf_ofFn]
  have hi : i < 19 := by omega
  have h0 : ¬ i = 0 := by omega
  have h18 : ¬ i = 18 := by omega
  simp [hi, h0, h18]

theorem rowOf_expandLib_ge (m st : Mask) {i : Nat} (h : 19 ≤ i) :
    rowOf (expandLib m st) i = 0 := by
  rw [expandLib, rowOf_ofFn]
  have : ¬ i < 19 := by omega
  simp [this]

theorem onPar_expandLib {m : Mask} {p : Nat} (st : Mask) (h : OnPar m p) :
    OnPar (expandLib m st) ((p + 1) % 2) := by
  intro yy xx hbit
  have hp : ∀ a b, (rowOf m b).testBit a = true → (a + b) % 2 = p := fun a b hb => h b a hb
  rcases Nat.lt_or_ge yy 19 with hlt | hge
  · rcases eq_or_ne yy 0 with rfl | hne0
    · rw [rowOf_expandLib_zero] at hbit
      simp only [Nat.testBit_lor, Nat.testBit_land, testBit_shl1,
        Nat.testBit_shiftRight, Bool.or_eq_true, Bool.and_eq_true,
        decide_eq_true_eq] at hbit
      rcases hbit with (h1 | ⟨_, hx1, hsrc⟩) | ⟨hsrc, _⟩
      · have := hp xx 1 h1; omega
      · have := hp (xx - 1) 0 hsrc; omega
      · have := hp (1 + xx) 0 hsrc; omega
    · rcases eq_or_ne yy 18 with rfl | hne18
      · rw [rowOf_expandLib_last] at hbit
        simp only [Nat.testBit_lor, Nat.testBit_land, testBit_shl1,
          Nat.testBit_shiftRight, Bool.or_eq_true, Bool.and_eq_true,
          decide_eq_true_eq] at hbit
        rcases hbit with (h1 | ⟨_, hx1, hsrc⟩) | ⟨hsrc, _⟩
        · have := hp xx 17 h1; omega
        · have := hp (xx - 1) 18 hsrc; omega
        · have := hp (1 + xx) 18 hsrc; omega
      · have h1 : 1 ≤ yy := by omega
        have h17 : yy ≤ 17 := by omega
        rw [rowOf_expandLib_mid m st h1 h17] at hbit
        simp only [Nat.testBit_lor, Nat.testBit_land, testBit_shl1,
          Nat.testBit_shiftRight, Bool.or_eq_true, Bool.and_eq_true,
          decide_eq_true_eq] at hbit
        rcases hbit with ((hup | ⟨_, hx1, hsrc⟩) | hsrc) | ⟨hdn, _⟩
        · have := hp xx (yy - 1) hup; omega
        · have := hp (xx - 1) yy hsrc; omega
        · have := hp (1 + xx) yy hsrc; omega
        · have := hp xx (yy + 1) hdn; omega
  · rw [rowOf_expandLib_ge m st hge] at hbit
    simp [Nat.zero_testBit] at hbit

theorem next_row_ne_zero {r : Nat} (h : r ≠ 0) :
    ∃ k, (shl1 r).testBit k = true ∨ (r >>> 1).testBit k = true := by
  obtain ⟨i, hi⟩ := exists_testBit h
  rcases Nat.lt_or_ge i 31 with hlt | hge
  · exact ⟨i + 1, Or.inl (by
      rw [testBit_shl1]
      simp [Nat.lt_succ_iff, hi]
      omega)⟩
  · exact ⟨i - 1, Or.inr (by
      rw [Nat.testBit_shiftRight]
      have : 1 + (i - 1) = i := by omega
      rw [this]; exact hi)⟩

/-- Liveness invariant for floods started in rows 1–17: some middle row of
the wavefront stays populated, because the unmasked horizontal shifts of a
middle row always survive. -/
def aliveMid (m : Mask) : Prop := ∃ i, 1 ≤ i ∧ i ≤ 17 ∧ rowOf m i ≠ 0

theorem aliveMid_expandLib {m : Mask} (st : Mask) (h : aliveMid m) :
    aliveMid (expandLib m st) := by
  obtain ⟨i, h1, h17, hne⟩ := h
  refine ⟨i, h1, h17, ?_⟩
  rw [rowOf_expandLib_mid m st h1 h17]
  obtain ⟨k, hk⟩ := next_row_ne_zero hne
  rcases hk with hk | hk
  · refine testBit_ne_zero (i := k) ?_
    simp [Nat.testBit_lor, hk]
  · refine testBit_ne_zero (i := k) ?_
    simp [Nat.testBit_lor, hk]

theorem aliveMid_nonempty {m : Mask} (h : aliveMid m) :
    ∃ xx yy, (rowOf m yy).testBit xx = true := by
  obtain ⟨i, _, _, hne⟩ := h
  obtain ⟨k, hk⟩ := exists_testBit hne
  exact ⟨k, i, hk⟩

/-- Liveness invariant for floods seeded at `(x, 18)`: the bottom row keeps a
bit at `x` or `x + 1`, regenerated through the stencil bit at the seed. -/
def aliveLast (x : Nat) (m : Mask) : Prop :=
  (rowOf m 18).testBit x = true ∨ (rowOf m 18).testBit (x + 1) = true

theorem aliveLast_expandLib {m st : Mask} {x : Nat} (hx : x ≤ 18)
    (hst : (rowOf st 18).testBit x = true) (h : aliveLast x m) :
    aliveLast x (expandLib m st) := by
  unfold aliveLast at h ⊢
  rw [rowOf_expandLib_last]
  rcases h with h | h
  · right
    have h1 : (shl1 (rowOf m 18)).testBit (x + 1) = true := by
      rw [testBit_shl1]
      have h31 : x + 1 < 32 := by omega
      simp [h31, h]
    simp [Nat.testBit_lor, h1]
  · left
    have h1 : ((rowOf m 18 >>> 1) &&& rowOf st 18).testBit x = true := by
      rw [Nat.testBit_land, Nat.testBit_shiftRight]
      have hadd : 1 + x = x + 1 := by omega
      rw [hadd, h, hst]
      rfl
    simp [Nat.testBit_lor, h1]

theorem aliveLast_nonempty {m : Mask} {x : Nat} (h : aliveLast x m) :
    ∃ xx yy, (rowOf m yy).testBit xx = true := by
  rcases h with h | h
  · exact ⟨x, 18, h⟩
  · exact ⟨x + 1, 18, h⟩

theorem maskGroupF_none_gen (st : Mask) (Alive : Mask → Prop)
    (hstep : ∀ m, Alive m → Alive (expandLib m st))
    (hwit : ∀ m, Alive m → ∃ xx yy, (rowOf m yy).testBit xx = true) :
    ∀ fuel m p, p ≤ 1 → OnPar m p → Alive m → maskGroupF fuel m st = none := by
  intro fuel
  induction fuel with
  | zero => intro m p _ _ _; rfl
  | succ fuel ih =>
    intro m p hle hpar halive
    have hnextAlive := hstep m halive
    have hnextPar := onPar_expandLib st hpar
    have hne : expandLib m st ≠ m := by
      intro heq
      obtain ⟨xx, yy, hbit⟩ := hwit _ hnextAlive
      have h1 := hnextPar yy xx hbit
      have h2 := hpar yy xx (by rw [← heq]; exact hbit)
      omega
    show (if expandLib m st = m then some m else maskGroupF fuel (expandLib m st) st) = none
    rw [if_neg hne]
    exact ih (expandLib m st) ((p + 1) % 2) (by omega) hnextPar hnextAlive

theorem onPar_seed (x y : Nat) (hy : y ≤ 18) :
    OnPar (maskSet emptyMask x y) ((x + y) % 2) := by
  intro yy xx hbit
  have := (seed_mem x y xx yy hy).mp hbit
  omega

/-- The fixed-point loop of `State::mask_group` in `lib.rs` never terminates
when seeded at an in-range cell that carries a stencil bit: its iterates hop
between the two checkerboards while a liveness invariant keeps them
non-empty, so no two consecutive iterates are ever equal. -/
theorem maskGroupF_seed_none (st : Mask) (x y : Nat) (hx : x ≤ 18) (hy : y ≤ 18)
    (hseed : (rowOf st y).testBit x = true) (fuel : Nat) :
    maskGroupF fuel (maskSet emptyMask x y) st = none := by
  have hseedbit : (rowOf (maskSet emptyMask x y) y).testBit x = true :=
    (seed_mem x y x y hy).mpr (And.intro rfl rfl)
  rcases eq_or_ne y 18 with rfl | hne18
  · exact maskGroupF_none_gen st (aliveLast x)
      (fun m hm => aliveLast_expandLib hx hseed hm)
      (fun m hm => aliveLast_nonempty hm)
      fuel _ ((x + 18) % 2) (by omega) (onPar_seed x 18 hy) (Or.inl hseedbit)
  · rcases eq_or_ne y 0 with rfl | hne0
    · cases fuel with
      | zero => rfl
      | succ fuel =>
        have hrow1 : (rowOf (expandLib (maskSet emptyMask x 0) st) 1).testBit x = true := by
          rw [rowOf_expandLib_mid _ st (by omega) (by omega)]
          simp [Nat.testBit_lor]
          exact Or.inl (Or.inl (Or.inl hseedbit))
        have hne : expandLib (maskSet emptyMask x 0) st ≠ maskSet emptyMask x 0 := by
          intro heq
          rw [heq] at hrow1
          have := (seed_mem x 0 x 1 (by omega)).mp hrow1
          omega
        show (if expandLib (maskSet emptyMask x 0) st = maskSet emptyMask x 0
            then some (maskSet emptyMask x 0)
            else maskGroupF fuel (expandLib (maskSet emptyMask x 0) st) st) = none
        rw [if_neg hne]
        exact maskGroupF_none_gen st aliveMid
          (fun m hm => aliveMid_expandLib st hm)
          (fun m hm => aliveMid_nonempty hm)
          fuel _ (((x + 0) % 2 + 1) % 2) (by omega)
          (onPar_expandLib st (onPar_seed x 0 (by omega)))
          ⟨1, by omega, by omega, testBit_ne_zero hrow1⟩
    · exact maskGroupF_none_gen st aliveMid
        (fun m hm => aliveMid_expandLib st hm)
        (fun m hm => aliveMid_nonempty hm)
        fuel _ ((x + y) % 2) (by omega) (onPar_seed x y hy)
        ⟨y, by omega, by omega, testBit_ne_zero hseedbit⟩

end DivergeLemmas

section TreeLemmas

theorem rowGet_eq_testBit (r i : Nat) : rowGet r i = r.testBit i := by
  rw [rowGet, Nat.testBit_to_div_mod, Nat.shiftRight_eq_div_pow, Nat.and_one_is_mod]
  rfl

theorem maskGet_eq_testBit (m : Mask) (x y : Nat) :
    maskGet m x y = (rowOf m y).testBit x := by
  rw [maskGet, rowGet_eq_testBit]

/-- A state representable by the Rust `State` type: nineteen rows per mask. -/
def wfState (s : State) : Prop := s.black.length = 19 ∧ s.white.length = 19

theorem maskGet_maskSet_self {m : Mask} {x y : Nat} (hy : y < m.length) :
    maskGet (maskSet m x y) x y = true := by
  rw [maskGet_eq_testBit, maskSet, rowOf_set _ y hy]
  simp [rowSet, Nat.testBit_lor, Nat.shiftLeft_eq, Nat.testBit_two_pow]

theorem stateGet_stateSet_self {s : State} {x y : Nat} (c : Color)
    (hy : y ≤ 18) (hwf : wfState s) (hb : maskGet s.black x y = false) :
    stateGet (stateSet s x y (some c)) x y = some c := by
  cases c with
  | black =>
    rw [stateSet, stateGet]
    simp [maskGet_maskSet_self (by rw [hwf.1]; omega : y < s.black.length)]
  | white =>
    rw [stateSet, stateGet]
    simp [hb, maskGet_maskSet_self (by rw [hwf.2]; omega : y < s.white.length)]

theorem removeGroup_some {fuel : Nat} {s : State} {x y : Nat} {s' : State}
    (hx : x ≤ 18) (hy : y ≤ 18) (h : removeGroup fuel s x y = some s') :
    s' = s ∧ stateGet s x y = none := by
  rcases hsg : stateGet s x y with _ | c
  · unfold removeGroup at h
    rw [hsg] at h
    exact ⟨(Option.some_inj.mp h).symm, rfl⟩
  · exfalso
    have hbit : (rowOf (colorMask s c) y).testBit x = true := by
      rw [stateGet] at hsg
      by_cases hbl : maskGet s.black x y = true
      · rw [if_pos hbl] at hsg
        cases hsg
        rw [← maskGet_eq_testBit]
        exact hbl
      · rw [if_neg hbl] at hsg
        by_cases hwh : maskGet s.white x y = true
        · rw [if_pos hwh] at hsg
          cases hsg
          rw [← maskGet_eq_testBit]
          exact hwh
        · rw [if_neg hwh] at hsg
          cases hsg
    have hdiv := maskGroupF_seed_none (colorMask s c) x y hx hy hbit fuel
    unfold removeGroup at h
    rw [hsg] at h
    obtain ⟨g, hg, _⟩ := Option.map_eq_some'.mp h
    rw [hdiv] at hg
    cases hg

theorem removalStep_some {fuel : Nat} {s : State} {b : Bool} {cx cy : Nat} {s' : State}
    (hb : b = true → cx ≤ 18 ∧ cy ≤ 18)
    (h : (if b then removeGroup fuel s cx cy else some s) = some s') :
    s' = s ∧ (b = true → stateGet s cx cy = none) := by
  cases b with
  | false =>
    rw [if_neg Bool.false_ne_true] at h
    exact ⟨(Option.some_inj.mp h).symm, fun hc => by cases hc⟩
  | true =>
    rw [if_pos rfl] at h
    obtain ⟨h1, h2⟩ := removeGroup_some (hb rfl).1 (hb rfl).2 h
    exact ⟨h1, fun _ => h2⟩

theorem removalsF_some {fuel : Nat} {s : State} {x y : Nat} {l r u d : Bool} {s' : State}
    (hx : x ≤ 18) (hy : y ≤ 18)
    (hr : r = true → x < 18) (hu : u = true → y < 18)
    (h : removalsF fuel s x y l r u d = some s') :
    s' = s ∧ (l = true → stateGet s (x - 1) y = none) ∧
      (r = true → stateGet s (x + 1) y = none) ∧
      (u = true → stateGet s x (y + 1) = none) ∧
      (d = true → stateGet s x (y - 1) = none) := by
  rw [removalsF] at h
  obtain ⟨s1, heq1, h⟩ := Option.bind_eq_some.mp h
  obtain ⟨e1, g1⟩ := removalStep_some (fun _ => ⟨by omega, hy⟩) heq1
  rw [e1] at h
  obtain ⟨s2, heq2, h⟩ := Option.bind_eq_some.mp h
  obtain ⟨e2, g2⟩ := removalStep_some (fun hrt => ⟨by have := hr hrt; omega, hy⟩) heq2
  rw [e2] at h
  obtain ⟨s3, heq3, h⟩ := Option.bind_eq_some.mp h
  obtain ⟨e3, g3⟩ := removalStep_some (fun hut => ⟨hx, by have := hu hut; omega⟩) heq3
  rw [e3] at h
  obtain ⟨e4, g4⟩ := removalStep_some (fun _ => ⟨hx, by omega⟩) h
  exact ⟨e4, g1, g2, g3, g4⟩

theorem probe4_guards {st : State} {c : Color} {x y fuel : Nat} {l r d u : Bool}
    (h : probe4 st c x y fuel = some (l, r, d, u)) :
    (l = true → 0 < x) ∧ (r = true → x < 18) ∧ (d = true → 0 < y) ∧ (u = true → y < 18) := by
  rw [probe4] at h
  obtain ⟨lv, heq1, h⟩ := Option.bind_eq_some.mp h
  obtain ⟨rv, heq2, h⟩ := Option.bind_eq_some.mp h
  obtain ⟨dv, heq3, h⟩ := Option.bind_eq_some.mp h
  obtain ⟨uv, heq4, h⟩ := Option.bind_eq_some.mp h
  have hinj := Option.some_inj.mp h
  simp only [Prod.mk.injEq] at hinj
  obtain ⟨e1, e2, e3, e4⟩ := hinj
  refine ⟨?_, ?_, ?_, ?_⟩
  · intro hlt
    by_cases h0 : 0 < x
    · exact h0
    · rw [if_neg h0] at heq1
      rw [← e1, ← Option.some_inj.mp heq1] at hlt
      simp at hlt
  · intro hlt
    by_cases h0 : x < 18
    · exact h0
    · rw [if_neg h0] at heq2
      rw [← e2, ← Option.some_inj.mp heq2] at hlt
      simp at hlt
  · intro hlt
    by_cases h0 : 0 < y
    · exact h0
    · rw [if_neg h0] at heq3
      rw [← e3, ← Option.some_inj.mp heq3] at hlt
      simp at hlt
  · intro hlt
    by_cases h0 : y < 18
    · exact h0
    · rw [if_neg h0] at heq4
      rw [← e4, ← Option.some_inj.mp heq4] at hlt
      simp at hlt

theorem koCommit_cases {t : Tree} {pidx : Nat} {s : State} {t' : Tree} {res : PlaceResult}
    (h : koCommit t pidx s = (t', res)) :
    (res = .ok ∧ t' = commitT t s ∧ ∀ pn, t.states.get? pidx = some pn → pn.state ≠ s) ∨
    (res = .ko ∧ t' = t ∧ ∃ pn, t.states.get? pidx = some pn ∧ pn.state = s) := by
  rw [koCommit] at h
  split at h
  · rename_i pn heq
    split at h
    · rename_i hps
      cases h
      exact Or.inr ⟨rfl, rfl, pn, heq, hps⟩
    · rename_i hps
      cases h
      refine Or.inl ⟨rfl, rfl, fun pn' hpn' => ?_⟩
      rw [heq] at hpn'
      cases hpn'
      exact hps
  · rename_i heq
    cases h
    refine Or.inl ⟨rfl, rfl, fun pn hpn => ?_⟩
    rw [heq] at hpn
    cases hpn

theorem currentState_commitT (t : Tree) (s : State) : currentState (commitT t s) = some s := by
  rw [currentState, commitT]
  simp [List.getElem?_concat_length]

theorem placeStone_cases {t : Tree} {x y fuel : Nat} {t' : Tree} {res : PlaceResult}
    (h : placeStone t x y fuel = some (t', res)) :
    x ≤ 18 ∧ y ≤ 18 ∧ ∃ node, t.states.get? t.current = some node ∧
      (((maskGet node.state.black x y || maskGet node.state.white x y) = true ∧
          t' = t ∧ res = .alreadyExists) ∨
       ((maskGet node.state.black x y || maskGet node.state.white x y) = false ∧
        ∃ l r d u, probe4 (stateSet node.state x y (some t.toPlay)) t.toPlay x y fuel
            = some (l, r, d, u) ∧
          (((l || r || d || u) = true ∧
            ∃ st2, removalsF fuel (stateSet node.state x y (some t.toPlay)) x y l r u d
                = some st2 ∧ koCommit t node.parent st2 = (t', res)) ∨
           ((l || r || d || u) = false ∧
            ((surroundedB (stateSet node.state x y (some t.toPlay)) t.toPlay.opposite x y = true ∧
                t' = t ∧ res = .selfCapture) ∨
             (surroundedB (stateSet node.state x y (some t.toPlay)) t.toPlay.opposite x y = false ∧
              koCommit t node.parent (stateSet node.state x y (some t.toPlay))
                = (t', res))))))) := by
  rw [placeStone] at h
  split at h
  case isFalse => cases h
  rename_i hxy
  refine ⟨hxy.1, hxy.2, ?_⟩
  obtain ⟨node, hnode, h⟩ := Option.bind_eq_some.mp h
  refine ⟨node, hnode, ?_⟩
  split at h
  · rename_i hocc
    have hpair := Option.some_inj.mp h
    rw [Prod.ext_iff] at hpair
    exact Or.inl ⟨hocc, hpair.1.symm, hpair.2.symm⟩
  rename_i hocc
  refine Or.inr ⟨eq_false_of_ne_true hocc, ?_⟩
  obtain ⟨fl, hp, h⟩ := Option.bind_eq_some.mp h
  refine ⟨fl.1, fl.2.1, fl.2.2.1, fl.2.2.2, hp, ?_⟩
  split at h
  · rename_i hflag
    obtain ⟨st2, hrem, h⟩ := Option.bind_eq_some.mp h
    exact Or.inl ⟨hflag, st2, hrem, Option.some_inj.mp h⟩
  · rename_i hflag
    have hflagF : (fl.1 || fl.2.1 || fl.2.2.1 || fl.2.2.2) = false := eq_false_of_ne_true hflag
    split at h
    · rename_i hsur
      have hpair := Option.some_inj.mp h
      rw [Prod.ext_iff] at hpair
      exact Or.inr ⟨hflagF, Or.inl ⟨hsur, hpair.1.symm, hpair.2.symm⟩⟩
    · rename_i hsur
      exact Or.inr ⟨hflagF, Or.inr ⟨eq_false_of_ne_true hsur, Option.some_inj.mp h⟩⟩

end TreeLemmas

section FuelMono

theorem andStep_eq_some {o : Option (Bool × Mask)} {k : Mask → Option (Bool × Mask)}
    {res : Bool × Mask} (h : andStep o k = some res) :
    ∃ b v, o = some (b, v) ∧
      ((b = true ∧ k v = some res) ∨ (b = false ∧ res = (false, v))) := by
  cases o with
  | none => simp [andStep] at h
  | some bv =>
    obtain ⟨b, v⟩ := bv
    cases b with
    | true =>
      refine ⟨true, v, rfl, Or.inl ⟨rfl, ?_⟩⟩
      simpa [andStep] using h
    | false =>
      refine ⟨false, v, rfl, Or.inr ⟨rfl, ?_⟩⟩
      have hfv : some ((false : Bool), v) = some res := by simpa [andStep] using h
      exact (Option.some_inj.mp hfv).symm

theorem andStep_true {o : Option (Bool × Mask)} {k : Mask → Option (Bool × Mask)}
    {v : Mask} {res : Bool × Mask}
    (ho : o = some (true, v)) (hk : k v = some res) : andStep o k = some res := by
  rw [ho]
  simpa [andStep] using hk

theorem andStep_false {o : Option (Bool × Mask)} {k : Mask → Option (Bool × Mask)}
    {v : Mask} (ho : o = some (false, v)) : andStep o k = some (false, v) := by
  rw [ho]
  simp [andStep]

theorem isCaptureF_mono :
    ∀ (fuel : Nat) {fuel' : Nat} {st : State} {cap : Color} {vis : Mask} {x y : Nat}
      {res : Bool × Mask}, fuel ≤ fuel' →
      isCaptureF fuel st cap vis x y = some res →
      isCaptureF fuel' st cap vis x y = some res := by
  intro fuel
  induction fuel with
  | zero =>
    intro fuel' st cap vis x y res hle h
    cases h
  | succ fuel ih =>
    intro fuel' st cap vis x y res hle h
    cases fuel' with
    | zero => omega
    | succ fuel'' =>
      have hle' : fuel ≤ fuel'' := by omega
      rw [isCaptureF] at h ⊢
      by_cases h1 : maskGet vis x y = true
      · rw [if_pos h1] at h ⊢
        exact h
      rw [if_neg h1] at h ⊢
      by_cases h2 : maskGet (colorMask st cap) x y = true
      · rw [if_pos h2] at h ⊢
        exact h
      rw [if_neg h2] at h ⊢
      by_cases h3 : maskGet (colorMask st cap.opposite) x y = true
      case neg =>
        rw [if_neg h3] at h ⊢
        exact h
      rw [if_pos h3] at h ⊢
      obtain ⟨b1, v1, hm1, hrest1⟩ := andStep_eq_some h
      have hm1' : (if x = 0 then some (true, maskSet vis x y)
          else isCaptureF fuel'' st cap (maskSet vis x y) (x - 1) y) = some (b1, v1) := by
        by_cases hx0 : x = 0
        · rw [if_pos hx0] at hm1 ⊢
          exact hm1
        · rw [if_neg hx0] at hm1 ⊢
          exact ih hle' hm1
      rcases hrest1 with ⟨hb1, hk1⟩ | ⟨hb1, hres1⟩
      swap
      · subst hb1
        rw [hres1]
        exact andStep_false hm1'
      subst hb1
      refine andStep_true hm1' ?_
      obtain ⟨b2, v2, hm2, hrest2⟩ := andStep_eq_some hk1
      have hm2' : (if 18 ≤ x then some (true, v1)
          else isCaptureF fuel'' st cap v1 (x + 1) y) = some (b2, v2) := by
        by_cases hx18 : 18 ≤ x
        · rw [if_pos hx18] at hm2 ⊢
          exact hm2
        · rw [if_neg hx18] at hm2 ⊢
          exact ih hle' hm2
      rcases hrest2 with ⟨hb2, hk2⟩ | ⟨hb2, hres2⟩
      swap
      · subst hb2
        rw [hres2]
        exact andStep_false hm2'
      subst hb2
      refine andStep_true hm2' ?_
      obtain ⟨b3, v3, hm3, hrest3⟩ := andStep_eq_some hk2
      have hm3' : (if y = 0 then some (true, v2)
          else isCaptureF fuel'' st cap v2 x (y - 1)) = some (b3, v3) := by
        by_cases hy0 : y = 0
        · rw [if_pos hy0] at hm3 ⊢
          exact hm3
        · rw [if_neg hy0] at hm3 ⊢
          exact ih hle' hm3
      rcases hrest3 with ⟨hb3, hk3⟩ | ⟨hb3, hres3⟩
      swap
      · subst hb3
        rw [hres3]
        exact andStep_false hm3'
      subst hb3
      refine andStep_true hm3' ?_
      show (if 18 ≤ y then some (true, v3) else isCaptureF fuel'' st cap v3 x (y + 1)) = some res
      have hk3' : (if 18 ≤ y then some (true, v3)
          else isCaptureF fuel st cap v3 x (y + 1)) = some res := hk3
      by_cases hy18 : 18 ≤ y
      · rw [if_pos hy18] at hk3' ⊢
        exact hk3'
      · rw [if_neg hy18] at hk3' ⊢
        exact ih hle' hk3'

theorem probe4_mono {st : State} {cap : Color} {x y : Nat} {fuel fuel' : Nat}
    {res : Bool × Bool × Bool × Bool} (hle : fuel ≤ fuel')
    (h : probe4 st cap x y fuel = some res) : probe4 st cap x y fuel' = some res := by
  rw [probe4] at h ⊢
  obtain ⟨lv, heq1, h⟩ := Option.bind_eq_some.mp h
  obtain ⟨rv, heq2, h⟩ := Option.bind_eq_some.mp h
  obtain ⟨dv, heq3, h⟩ := Option.bind_eq_some.mp h
  obtain ⟨uv, heq4, h⟩ := Option.bind_eq_some.mp h
  have heq1' : (if 0 < x then isCaptureF fuel' st cap emptyMask (x - 1) y
      else some (false, emptyMask)) = some lv := by
    by_cases h0 : 0 < x
    · rw [if_pos h0] at heq1 ⊢
      exact isCaptureF_mono fuel hle heq1
    · rw [if_neg h0] at heq1 ⊢
      exact heq1
  have heq2' : (if x < 18 then isCaptureF fuel' st cap lv.2 (x + 1) y
      else some (false, lv.2)) = some rv := by
    by_cases h0 : x < 18
    · rw [if_pos h0] at heq2 ⊢
      exact isCaptureF_mono fuel hle heq2
    · rw [if_neg h0] at heq2 ⊢
      exact heq2
  have heq3' : (if 0 < y then isCaptureF fuel' st cap rv.2 x (y - 1)
      else some (false, rv.2)) = some dv := by
    by_cases h0 : 0 < y
    · rw [if_pos h0] at heq3 ⊢
      exact isCaptureF_mono fuel hle heq3
    · rw [if_neg h0] at heq3 ⊢
      exact heq3
  have heq4' : (if y < 18 then isCaptureF fuel' st cap dv.2 x (y + 1)
      else some (false, dv.2)) = some uv := by
    by_cases h0 : y < 18
    · rw [if_pos h0] at heq4 ⊢
      exact isCaptureF_mono fuel hle heq4
    · rw [if_neg h0] at heq4 ⊢
      exact heq4
  exact Option.bind_eq_some.mpr ⟨lv, heq1', Option.bind_eq_some.mpr ⟨rv, heq2',
    Option.bind_eq_some.mpr ⟨dv, heq3', Option.bind_eq_some.mpr ⟨uv, heq4', h⟩⟩⟩⟩

end FuelMono

/-- Board of the capture scenario refuting C4: black stones at `(1,0)`,
`(0,1)` and `(2,1)`, a single white stone at `(1,1)`, black to play. -/
def c4Black : Mask := 2 :: 5 :: List.replicate 17 0

/-- White mask of the capture scenario: a single stone at `(1,1)`. -/
def c4White : Mask := 0 :: 2 :: List.replicate 17 0

/-- The tree of the capture scenario (one root node, black to play). -/
def c4Tree : Tree := ⟨[⟨⟨c4Black, c4White⟩, usizeMax⟩], 0, .black, .toggle⟩

/-- The candidate state after black places at `(1,2)`. -/
def c4Candidate : State := stateSet ⟨c4Black, c4White⟩ 1 2 (some .black)

/-- C4 (failing input): after black places at `(1,2)`, the adjacent white
group `{(1,1)}` has zero liberties — all four of its neighbours are occupied
in the candidate state — yet `place_stone` never commits any resulting
state: for every iteration bound the removal's flood loop fails to reach a
fixed point, so the call never returns.  The claimed removal of the captured
group from a committed state therefore never happens. -/
theorem place_stone_capture_never_commits :
    (∀ fuel, placeStone c4Tree 1 2 fuel = none) ∧
    stateGet c4Candidate 1 1 = some .white ∧
    stateGet c4Candidate 0 1 = some .black ∧
    stateGet c4Candidate 2 1 = some .black ∧
    stateGet c4Candidate 1 0 = some .black ∧
    stateGet c4Candidate 1 2 = some .black := by
  refine ⟨?_, by decide, by decide, by decide, by decide, by decide⟩
  intro fuel
  cases hres : placeStone c4Tree 1 2 fuel with
  | none => rfl
  | some pr =>
    exfalso
    obtain ⟨t', res⟩ := pr
    obtain ⟨hx, hy, node, hnode, hcase⟩ := placeStone_cases hres
    have hroot : c4Tree.states.get? c4Tree.current = some ⟨⟨c4Black, c4White⟩, usizeMax⟩ := rfl
    rw [hroot] at hnode
    have hnodeq := (Option.some_inj.mp hnode).symm
    subst hnodeq
    rcases hcase with ⟨hocc, _, _⟩ | ⟨_, l, r, d, u, hp, hcase⟩
    · exact absurd hocc (by decide)
    · have h40 : probe4 (stateSet ⟨c4Black, c4White⟩ 1 2 (some c4Tree.toPlay))
          c4Tree.toPlay 1 2 40 = some (false, false, true, false) := by decide
      have h1 := probe4_mono (Nat.le_max_left fuel 40) hp
      have h2 := probe4_mono (Nat.le_max_right fuel 40) h40
      rw [h1] at h2
      have hfl := Option.some_inj.mp h2
      simp only [Prod.mk.injEq] at hfl
      obtain ⟨hl, hr, hd, hu⟩ := hfl
      subst hl
      subst hr
      subst hd
      subst hu
      rcases hcase with ⟨_, st2, hrem, _⟩ | ⟨hflag, _⟩
      · obtain ⟨_, _, _, _, gd⟩ :=
          removalsF_some hx hy (fun hc => by cases hc) (fun hc => by cases hc) hrem
        exact absurd (gd rfl) (by decide)
      · exact absurd hflag (by decide)

/-- C9: whenever `place_stone` returns an error (`AlreadyExists`,
`SelfCapture`, or `Ko`), the move tree is left completely unchanged — node
sequence, current index and color to play are exactly as before the call. -/
theorem place_stone_rejection_atomic {t : Tree} {x y fuel : Nat} {t' : Tree}
    {res : PlaceResult} (h : placeStone t x y fuel = some (t', res))
    (hres : res ≠ .ok) : t' = t := by
  obtain ⟨hx, hy, node, hnode, hcase⟩ := placeStone_cases h
  rcases hcase with ⟨_, ht, _⟩ | ⟨_, l, r, d, u, hp, hcase⟩
  · exact ht
  rcases hcase with ⟨_, st2, hrem, hko⟩ | ⟨_, hcase⟩
  · rcases koCommit_cases hko with ⟨hok, _, _⟩ | ⟨_, ht, _⟩
    · exact absurd hok hres
    · exact ht
  rcases hcase with ⟨_, ht, _⟩ | ⟨_, hko⟩
  · exact ht
  rcases koCommit_cases hko with ⟨hok, _, _⟩ | ⟨_, ht, _⟩
  · exact absurd hok hres
  · exact ht

/-- C1: if `place_stone(x, y)` returns `Ok` on a tree whose current state is
representable (nineteen rows per mask), the new current state holds the color
that was to play before the call at `(x, y)`. -/
theorem place_stone_ok_stone_present {t : Tree} {x y fuel : Nat} {t' : Tree} {node : Node}
    (hnode : t.states.get? t.current = some node) (hwf : wfState node.state)
    (h : placeStone t x y fuel = some (t', .ok)) :
    ∃ s, currentState t' = some s ∧ stateGet s x y = some t.toPlay := by
  obtain ⟨hx, hy, node', hnode', hcase⟩ := placeStone_cases h
  rw [hnode] at hnode'
  cases hnode'
  rcases hcase with ⟨_, _, hres⟩ | ⟨hocc, l, r, d, u, hp, hcase⟩
  · cases hres
  have hoccb : maskGet node.state.black x y = false := by
    cases hbl : maskGet node.state.black x y
    · rfl
    · rw [hbl] at hocc
      simp at hocc
  have hpresent : stateGet (stateSet node.state x y (some t.toPlay)) x y = some t.toPlay :=
    stateGet_stateSet_self t.toPlay hy hwf hoccb
  rcases hcase with ⟨_, st2, hrem, hko⟩ | ⟨_, hcase⟩
  · obtain ⟨gl, gr, gd, gu⟩ := probe4_guards hp
    obtain ⟨e, _⟩ := removalsF_some hx hy gr gu hrem
    rw [e] at hko
    rcases koCommit_cases hko with ⟨_, ht', _⟩ | ⟨hkr, _, _⟩
    · refine ⟨stateSet node.state x y (some t.toPlay), ?_, hpresent⟩
      rw [ht']
      exact currentState_commitT t _
    · cases hkr
  · rcases hcase with ⟨_, _, hres⟩ | ⟨_, hko⟩
    · cases hres
    · rcases koCommit_cases hko with ⟨_, ht', _⟩ | ⟨hkr, _, _⟩
      · refine ⟨stateSet node.state x y (some t.toPlay), ?_, hpresent⟩
        rw [ht']
        exact currentState_commitT t _
      · cases hkr

/-- C7: a call that passes the occupancy, capture and suicide phases returns
`Err(Ko)` (leaving the tree unchanged) exactly when the candidate state —
the current state with the new stone, which the terminating capture phase
leaves untouched — equals the state stored at the parent of the current
node; equality with any other state does not trigger `Ko`. -/
theorem place_stone_ko_iff {t : Tree} {x y fuel : Nat} {t' : Tree} {res : PlaceResult}
    {node : Node} (hnode : t.states.get? t.current = some node)
    (h : placeStone t x y fuel = some (t', res))
    (hae : res ≠ .alreadyExists) (hsc : res ≠ .selfCapture) :
    ((res = .ko ∧ t' = t) ↔
      ∃ p, t.states.get? node.parent = some p ∧
        p.state = stateSet node.state x y (some t.toPlay)) := by
  obtain ⟨hx, hy, node', hnode', hcase⟩ := placeStone_cases h
  rw [hnode] at hnode'
  cases hnode'
  rcases hcase with ⟨_, _, hres⟩ | ⟨hocc, l, r, d, u, hp, hcase⟩
  · exact absurd hres hae
  have koIff : koCommit t node.parent (stateSet node.state x y (some t.toPlay)) = (t', res) →
      ((res = .ko ∧ t' = t) ↔
        ∃ p, t.states.get? node.parent = some p ∧
          p.state = stateSet node.state x y (some t.toPlay)) := by
    intro hko
    rcases koCommit_cases hko with ⟨hok, ht', hnone⟩ | ⟨hkr, ht, p, hpp, hps⟩
    · constructor
      · rintro ⟨hkk, _⟩
        rw [hok] at hkk
        cases hkk
      · rintro ⟨p, hpp, hps⟩
        exact absurd hps (hnone p hpp)
    · constructor
      · intro _
        exact ⟨p, hpp, hps⟩
      · intro _
        exact ⟨hkr, ht⟩
  rcases hcase with ⟨_, st2, hrem, hko⟩ | ⟨_, hcase⟩
  · obtain ⟨gl, gr, gd, gu⟩ := probe4_guards hp
    obtain ⟨e, _⟩ := removalsF_some hx hy gr gu hrem
    rw [e] at hko
    exact koIff hko
  · rcases hcase with ⟨_, _, hres⟩ | ⟨_, hko⟩
    · exact absurd hres hsc
    · exact koIff hko

/-- C8: a call that passes the occupancy check returns `Err(SelfCapture)`
exactly when each of the four directions from `(x, y)` is off-board or
occupied by the opposing color in the candidate state.  In particular a
raised capture flag forces at least one in-range neighbour not to be
defender-occupied, because the removal of an occupied neighbour never
terminates. -/
theorem place_stone_suicide_iff {t : Tree} {x y fuel : Nat} {t' : Tree}
    {res : PlaceResult} {node : Node}
    (hnode : t.states.get? t.current = some node)
    (hocc : (maskGet node.state.black x y || maskGet node.state.white x y) = false)
    (h : placeStone t x y fuel = some (t', res)) :
    (res = .selfCapture ↔
      surroundedB (stateSet node.state x y (some t.toPlay)) t.toPlay.opposite x y = true) := by
  obtain ⟨hx, hy, node', hnode', hcase⟩ := placeStone_cases h
  rw [hnode] at hnode'
  cases hnode'
  rcases hcase with ⟨hocc', _, _⟩ | ⟨_, l, r, d, u, hp, hcase⟩
  · rw [hocc] at hocc'
    cases hocc'
  rcases hcase with ⟨hflag, st2, hrem, hko⟩ | ⟨_, hcase⟩
  · obtain ⟨gl, gr, gd, gu⟩ := probe4_guards hp
    obtain ⟨e, gnl, gnr, gnu, gnd⟩ := removalsF_some hx hy gr gu hrem
    have hres_ne : res ≠ .selfCapture := by
      rcases koCommit_cases hko with ⟨hok, _, _⟩ | ⟨hkr, _, _⟩
      · rw [hok]
        intro hc
        cases hc
      · rw [hkr]
        intro hc
        cases hc
    have hsur : surroundedB (stateSet node.state x y (some t.toPlay)) t.toPlay.opposite x y
        = false := by
      cases hcon : surroundedB (stateSet node.state x y (some t.toPlay)) t.toPlay.opposite x y
      · rfl
      · exfalso
        rw [surroundedB] at hcon
        simp only [Bool.and_eq_true, Bool.or_eq_true, decide_eq_true_eq] at hcon
        obtain ⟨hL, hR, hD, hU⟩ := hcon
        simp only [Bool.or_eq_true] at hflag
        rcases hflag with ((hl | hr) | hd) | hu
        · have h0 := gl hl
          rcases hL with h0' | hne
          · omega
          · rw [gnl hl] at hne
            cases hne
        · have h0 := gr hr
          rcases hR with h0' | hne
          · omega
          · rw [gnr hr] at hne
            cases hne
        · have h0 := gd hd
          rcases hD with h0' | hne
          · omega
          · rw [gnd hd] at hne
            cases hne
        · have h0 := gu hu
          rcases hU with h0' | hne
          · omega
          · rw [gnu hu] at hne
            cases hne
    rw [hsur]
    constructor
    · intro hc
      exact absurd hc hres_ne
    · intro hc
      cases hc
  · rcases hcase with ⟨hsurT, _, hres⟩ | ⟨hsurF, hko⟩
    · rw [hres, hsurT]
      exact ⟨fun _ => rfl, fun _ => rfl⟩
    · have hres_ne : res ≠ .selfCapture := by
        rcases koCommit_cases hko with ⟨hok, _, _⟩ | ⟨hkr, _, _⟩
        · rw [hok]
          intro hc
          cases hc
        · rw [hkr]
          intro hc
          cases hc
      rw [hsurF]
      constructor
      · intro hc
        exact absurd hc hres_ne
      · intro hc
        cases hc


section TreeWitnesses

/-- Parent state of the ko witness scenario: black `(0,0)`, white `(5,5)`. -/
def koParentState : State := ⟨maskSet emptyMask 0 0, maskSet emptyMask 5 5⟩

/-- Current state of the ko witness scenario: only white `(5,5)`. -/
def koCurrState : State := ⟨emptyMask, maskSet emptyMask 5 5⟩

/-- A two-node tree whose parent state equals the candidate produced by
black playing `(0,0)` — the positional-ko situation. -/
def koTree : Tree := ⟨[⟨koParentState, usizeMax⟩, ⟨koCurrState, 0⟩], 1, .black, .toggle⟩

/-- White mask of the self-capture witness: stones at `(1,0)` and `(0,1)`. -/
def c8White : Mask := 2 :: 1 :: List.replicate 17 0

/-- Tree of the self-capture witness: black to play into the corner `(0,0)`
surrounded by white stones. -/
def c8Tree : Tree := ⟨[⟨⟨emptyMask, c8White⟩, usizeMax⟩], 0, .black, .toggle⟩

/-- The tree committed by placing black `(0,0)` on the empty board. -/
def c1Committed : Tree := commitT emptyTree (stateSet ⟨emptyMask, emptyMask⟩ 0 0 (some .black))

theorem place_stone_ok_stone_present_witness :
    ∃ s, currentState c1Committed = some s ∧ stateGet s 0 0 = some Color.black :=
  place_stone_ok_stone_present
    (show emptyTree.states.get? emptyTree.current = some ⟨⟨emptyMask, emptyMask⟩, usizeMax⟩
      from by decide)
    ⟨rfl, rfl⟩
    (show placeStone emptyTree 0 0 5 = some (c1Committed, .ok) from by decide)

theorem place_stone_ko_iff_witness :
    ∃ p, koTree.states.get? (0 : Nat) = some p ∧
      p.state = stateSet koCurrState 0 0 (some Color.black) :=
  (place_stone_ko_iff
    (show koTree.states.get? koTree.current = some ⟨koCurrState, 0⟩ from by decide)
    (show placeStone koTree 0 0 9 = some (koTree, .ko) from by decide)
    (by decide) (by decide)).mp ⟨rfl, rfl⟩

theorem place_stone_suicide_iff_witness :
    surroundedB (stateSet ⟨emptyMask, c8White⟩ 0 0 (some Color.black)) Color.white 0 0 = true :=
  (place_stone_suicide_iff
    (show c8Tree.states.get? c8Tree.current = some ⟨⟨emptyMask, c8White⟩, usizeMax⟩
      from by decide)
    (by decide)
    (show placeStone c8Tree 0 0 20 = some (c8Tree, .selfCapture) from by decide)).mp rfl

theorem place_stone_rejection_atomic_witness : koTree = koTree :=
  place_stone_rejection_atomic
    (show placeStone koTree 0 0 9 = some (koTree, .ko) from by decide)
    (by decide)

end TreeWitnesses

section FloodLemmas

theorem testBit_rowExpand {r i : Nat} :
    (rowExpand r).testBit i = true ↔
      (1 ≤ i ∧ i < 32 ∧ r.testBit (i - 1) = true) ∨
        r.testBit i = true ∨ r.testBit (i + 1) = true := by
  rw [rowExpand]
  simp only [Nat.testBit_lor, testBit_shl1, Nat.testBit_shiftRight, Bool.or_eq_true,
    Bool.and_eq_true, decide_eq_true_eq]
  constructor
  · rintro ((⟨h32, h1, hb⟩ | hb) | hb)
    · exact Or.inl ⟨h1, h32, hb⟩
    · exact Or.inr (Or.inl hb)
    · refine Or.inr (Or.inr ?_)
      rwa [Nat.add_comm 1 i] at hb
  · rintro (⟨h1, h32, hb⟩ | hb | hb)
    · exact Or.inl (Or.inl ⟨h32, h1, hb⟩)
    · exact Or.inl (Or.inr hb)
    · refine Or.inr ?_
      rwa [Nat.add_comm i 1] at hb

theorem rowOf_expandOnce_zero (m st : Mask) :
    rowOf (expandOnce m st) 0 = (rowOf m 1 ||| rowExpand (rowOf m 0)) &&& rowOf st 0 := by
  rw [expandOnce, rowOf_ofFn]
  simp

theorem rowOf_expandOnce_last (m st : Mask) :
    rowOf (expandOnce m st) 18 = (rowOf m 17 ||| rowExpand (rowOf m 18)) &&& rowOf st 18 := by
  rw [expandOnce, rowOf_ofFn]
  simp

theorem rowOf_expandOnce_mid (m st : Mask) {i : Nat} (h1 : 1 ≤ i) (h17 : i ≤ 17) :
    rowOf (expandOnce m st) i =
      (rowOf m (i - 1) ||| rowExpand (rowOf m i) ||| rowOf m (i + 1)) &&& rowOf st i := by
  rw [expandOnce, rowOf_ofFn]
  have hi : i < 19 := by omega
  have h0 : ¬ i = 0 := by omega
  have h18 : ¬ i = 18 := by omega
  simp [hi, h0, h18]

theorem rowOf_expandOnce_ge (m st : Mask) {i : Nat} (h : 19 ≤ i) :
    rowOf (expandOnce m st) i = 0 := by
  rw [expandOnce, rowOf_ofFn]
  have : ¬ i < 19 := by omega
  simp [this]

theorem length_expandOnce (m st : Mask) : (expandOnce m st).length = 19 := by
  rw [expandOnce, List.length_ofFn]

theorem mem_expandOnce {m st : Mask} {x y : Nat} :
    cellMem (expandOnce m st) x y ↔
      y < 19 ∧ cellMem st x y ∧
        ((1 ≤ y ∧ (rowOf m (y - 1)).testBit x = true) ∨
         (y ≤ 17 ∧ (rowOf m (y + 1)).testBit x = true) ∨
         (rowExpand (rowOf m y)).testBit x = true) := by
  unfold cellMem
  rcases Nat.lt_or_ge y 19 with hlt | hge
  · rcases eq_or_ne y 0 with rfl | hne0
    · rw [rowOf_expandOnce_zero]
      simp only [Nat.testBit_land, Nat.testBit_lor, Bool.and_eq_true, Bool.or_eq_true]
      constructor
      · rintro ⟨hsrc | hsrc, hst⟩
        · exact ⟨by omega, hst, Or.inr (Or.inl ⟨by omega, hsrc⟩)⟩
        · exact ⟨by omega, hst, Or.inr (Or.inr hsrc)⟩
      · rintro ⟨_, hst, ⟨h1, _⟩ | ⟨_, hsrc⟩ | hsrc⟩
        · omega
        · exact ⟨Or.inl hsrc, hst⟩
        · exact ⟨Or.inr hsrc, hst⟩
    · rcases eq_or_ne y 18 with rfl | hne18
      · rw [rowOf_expandOnce_last]
        simp only [Nat.testBit_land, Nat.testBit_lor, Bool.and_eq_true, Bool.or_eq_true]
        constructor
        · rintro ⟨hsrc | hsrc, hst⟩
          · exact ⟨by omega, hst, Or.inl ⟨by omega, hsrc⟩⟩
          · exact ⟨by omega, hst, Or.inr (Or.inr hsrc)⟩
        · rintro ⟨_, hst, ⟨_, hsrc⟩ | ⟨h17, _⟩ | hsrc⟩
          · exact ⟨Or.inl hsrc, hst⟩
          · omega
          · exact ⟨Or.inr hsrc, hst⟩
      · have h1 : 1 ≤ y := by omega
        have h17 : y ≤ 17 := by omega
        rw [rowOf_expandOnce_mid m st h1 h17]
        simp only [Nat.testBit_land, Nat.testBit_lor, Bool.and_eq_true, Bool.or_eq_true]
        constructor
        · rintro ⟨(hsrc | hsrc) | hsrc, hst⟩
          · exact ⟨hlt, hst, Or.inl ⟨h1, hsrc⟩⟩
          · exact ⟨hlt, hst, Or.inr (Or.inr hsrc)⟩
          · exact ⟨hlt, hst, Or.inr (Or.inl ⟨h17, hsrc⟩)⟩
        · rintro ⟨_, hst, ⟨_, hsrc⟩ | ⟨_, hsrc⟩ | hsrc⟩
          · exact ⟨Or.inl (Or.inl hsrc), hst⟩
          · exact ⟨Or.inr hsrc, hst⟩
          · exact ⟨Or.inl (Or.inr hsrc), hst⟩
  · rw [rowOf_expandOnce_ge m st hge]
    simp only [Nat.zero_testBit]
    constructor
    · intro h
      cases h
    · rintro ⟨h, _⟩
      omega

theorem valid_mem_bounds {M : Mask} (hM : valid19 M) {x y : Nat} (h : cellMem M x y) :
    x ≤ 18 ∧ y ≤ 18 := by
  unfold cellMem at h
  constructor
  · by_contra hx
    have h19 : 19 ≤ x := by omega
    have hrow : rowOf M y < 2 ^ 19 := by
      rcases Nat.lt_or_ge y M.length with hy | hy
      · have : M.getD y 0 ∈ M := by
          rw [List.getD_eq_getElem?_getD, List.getElem?_eq_getElem hy]
          exact List.getElem_mem hy
        exact hM.2 _ this
      · rw [rowOf_ge_length hy]
        positivity
    have : rowOf M y < 2 ^ x :=
      lt_of_lt_of_le hrow (Nat.pow_le_pow_right (by omega) h19)
    rw [Nat.testBit_lt_two_pow this] at h
    cases h
  · by_contra hy
    rw [rowOf_ge_length (by rw [hM.1]; omega)] at h
    simp [Nat.zero_testBit] at h

theorem mem_of_expandOnce {m st : Mask} {x y : Nat} (h : cellMem (expandOnce m st) x y) :
    cellMem st x y ∧ (cellMem m x y ∨ ∃ a b, Adj (a, b) (x, y) ∧ cellMem m a b) := by
  obtain ⟨hy, hst, hsrc⟩ := mem_expandOnce.mp h
  refine ⟨hst, ?_⟩
  rcases hsrc with ⟨h1, hb⟩ | ⟨h17, hb⟩ | hb
  · exact Or.inr ⟨x, y - 1, Or.inl ⟨rfl, Or.inl (by omega)⟩, hb⟩
  · exact Or.inr ⟨x, y + 1, Or.inl ⟨rfl, Or.inr rfl⟩, hb⟩
  · rcases testBit_rowExpand.mp hb with ⟨hx1, _, hb'⟩ | hb' | hb'
    · exact Or.inr ⟨x - 1, y, Or.inr ⟨rfl, Or.inl (by omega)⟩, hb'⟩
    · exact Or.inl hb'
    · exact Or.inr ⟨x + 1, y, Or.inr ⟨rfl, Or.inr rfl⟩, hb'⟩

theorem mem_expandOnce_self {m st : Mask} {x y : Nat} (hy : y < 19)
    (hm : cellMem m x y) (hst : cellMem st x y) : cellMem (expandOnce m st) x y :=
  mem_expandOnce.mpr ⟨hy, hst, Or.inr (Or.inr (testBit_rowExpand.mpr (Or.inr (Or.inl hm))))⟩

theorem mem_expandOnce_adj {m st : Mask} {a b x y : Nat} (ha : a ≤ 18) (hb : b ≤ 18)
    (hy : y < 19) (hm : cellMem m a b) (hadj : Adj (a, b) (x, y))
    (hst : cellMem st x y) : cellMem (expandOnce m st) x y := by
  refine mem_expandOnce.mpr ⟨hy, hst, ?_⟩
  rcases hadj with ⟨hax, hv⟩ | ⟨hby, hh⟩
  · simp only at hax hv
    rcases hv with hv | hv
    · refine Or.inl ⟨by omega, ?_⟩
      have hb' : b = y - 1 := by omega
      rw [← hb', ← hax]
      exact hm
    · refine Or.inr (Or.inl ⟨by omega, ?_⟩)
      have hb' : b = y + 1 := by omega
      rw [← hb', ← hax]
      exact hm
  · simp only at hby hh
    refine Or.inr (Or.inr (testBit_rowExpand.mpr ?_))
    rcases hh with hh | hh
    · refine Or.inl ⟨by omega, by omega, ?_⟩
      have ha' : a = x - 1 := by omega
      rw [← ha', ← hby]
      exact hm
    · refine Or.inr (Or.inr ?_)
      have ha' : a = x + 1 := by omega
      rw [← ha', ← hby]
      exact hm

theorem expandAllF_fixed :
    ∀ {fuel : Nat} {m st F : Mask}, expandAllF fuel m st = some F → expandOnce F st = F := by
  intro fuel
  induction fuel with
  | zero =>
    intro m st F h
    cases h
  | succ fuel ih =>
    intro m st F h
    have h' : (if expandOnce m st = m then some (expandOnce m st)
        else expandAllF fuel (expandOnce m st) st) = some F := h
    by_cases heq : expandOnce m st = m
    · rw [if_pos heq] at h'
      have hF := Option.some_inj.mp h'
      have hFm : F = m := by
        rw [← hF]
        exact heq
      rw [hFm]
      exact heq
    · rw [if_neg heq] at h'
      exact ih h'

theorem expandAllF_inv {st : Mask} (P : Mask → Prop)
    (hstep : ∀ m, P m → P (expandOnce m st)) :
    ∀ {fuel : Nat} {m F : Mask}, P m → expandAllF fuel m st = some F → P F := by
  intro fuel
  induction fuel with
  | zero =>
    intro m F _ h
    cases h
  | succ fuel ih =>
    intro m F hP h
    have h' : (if expandOnce m st = m then some (expandOnce m st)
        else expandAllF fuel (expandOnce m st) st) = some F := h
    by_cases heq : expandOnce m st = m
    · rw [if_pos heq] at h'
      rw [← Option.some_inj.mp h']
      exact hstep m hP
    · rw [if_neg heq] at h'
      exact ih (hstep m hP) h'

theorem reach_mem {M : Mask} {a b x y : Nat} (h : Reach M a b x y) : cellMem M x y := by
  induction h with
  | refl h => exact h
  | step _ _ hmem _ => exact hmem

/-- Core flood-fill correctness: if the `expand_all` loop, started from a
set of seeds contained in the stencil, reaches a fixed point, the result is
exactly the set of stencil cells reachable from some seed through
four-directionally adjacent stencil cells. -/
theorem expandAll_reach {M S F : Mask} {fuel : Nat} (hM : valid19 M)
    (hS : ∀ a b, cellMem S a b → cellMem M a b)
    (h : expandAllF fuel S M = some F) :
    ∀ x y, cellMem F x y ↔ ∃ a b, cellMem S a b ∧ Reach M a b x y := by
  have hFfix := expandAllF_fixed h
  have hFsub : ∀ x y, cellMem F x y → cellMem M x y := by
    intro x y hf
    rw [← hFfix] at hf
    exact (mem_of_expandOnce hf).1
  intro x y
  constructor
  · refine expandAllF_inv
      (fun m => ∀ x y, cellMem m x y → ∃ a b, cellMem S a b ∧ Reach M a b x y) ?_ ?_ h x y
    · intro m hP cx cy hc
      obtain ⟨hst, hcase⟩ := mem_of_expandOnce hc
      rcases hcase with hm | ⟨a, b, hadj, hmem⟩
      · exact hP cx cy hm
      · obtain ⟨sa, sb, hsa, hreach⟩ := hP a b hmem
        exact ⟨sa, sb, hsa, Reach.step hreach hadj hst⟩
    · intro cx cy hc
      exact ⟨cx, cy, hc, Reach.refl (hS cx cy hc)⟩
  · rintro ⟨a, b, hsa, hreach⟩
    have hSF : ∀ cx cy, cellMem S cx cy → cellMem F cx cy := by
      refine expandAllF_inv (fun m => ∀ cx cy, cellMem S cx cy → cellMem m cx cy) ?_
        (fun cx cy hc => hc) h
      intro m hP cx cy hc
      have hMc := hS cx cy hc
      have hy : cy < 19 := by
        have := (valid_mem_bounds hM hMc).2
        omega
      exact mem_expandOnce_self hy (hP cx cy hc) hMc
    induction hreach with
    | refl hmem => exact hSF a b hsa
    | step hprev hadj hmem ih =>
      rename_i cx cy cx' cy'
      have hMc := reach_mem hprev
      obtain ⟨hxb, hyb⟩ := valid_mem_bounds hM hMc
      have hy' : cy' < 19 := by
        have := (valid_mem_bounds hM hmem).2
        omega
      rw [← hFfix]
      exact mem_expandOnce_adj hxb hyb hy' ih hadj hmem

end FloodLemmas

/-- C2: for a well-formed mask and an in-range seed that is set in the mask,
`flood` computes exactly the maximal four-directionally connected component
of set cells containing the seed: a cell is in the result iff it is
reachable from the seed through adjacent set cells (membership in the mask
is part of reachability). -/
theorem flood_component {M : Mask} {x y fuel : Nat} {F : Mask}
    (hM : valid19 M) (hx : x ≤ 18) (hy : y ≤ 18) (hseed : cellMem M x y)
    (h : flood M x y fuel = some F) :
    ∀ a b, cellMem F a b ↔ Reach M x y a b := by
  rw [flood] at h
  have hS : ∀ a b, cellMem (maskSet emptyMask x y) a b → cellMem M a b := by
    intro a b hab
    obtain ⟨ha, hb⟩ := (seed_mem x y a b hy).mp hab
    rw [ha, hb]
    exact hseed
  have hmain := expandAll_reach hM hS h
  intro a b
  rw [hmain a b]
  constructor
  · rintro ⟨sa, sb, hsab, hreach⟩
    obtain ⟨ha, hb⟩ := (seed_mem x y sa sb hy).mp hsab
    rw [ha, hb] at hreach
    exact hreach
  · intro hreach
    exact ⟨x, y, (seed_mem x y x y hy).mpr ⟨rfl, rfl⟩, hreach⟩

/-- Mask of the C2 witness: two stones `(0,0)` and `(1,0)`. -/
def c2Mask : Mask := 3 :: List.replicate 18 0

/-- Flood result of the C2 witness. -/
def c2Flood : Mask := 3 :: List.replicate 18 0

theorem flood_component_witness : Reach c2Mask 0 0 1 0 :=
  (flood_component ⟨by decide, by decide⟩ (by omega) (by omega) (by decide)
    (show flood c2Mask 0 0 5 = some c2Flood from by decide) 1 0).mp (by decide)

/-- Mask of the C6 counterexample: a single stone at `(1,0)`; the seed
`(0,0)` is empty but adjacent to it. -/
def c6Mask : Mask := 2 :: List.replicate 18 0

/-- Flood result of the C6 counterexample: the stone adjacent to the unset
seed, not the empty mask. -/
def c6Flood : Mask := 2 :: List.replicate 18 0

/-- C6 (counterexample): flooding `c6Mask` from the unset seed `(0,0)` does
not return the fully empty mask — the stencil bit at `(1,0)`, four-adjacent
to the seed, survives the first dilation and the fixed point is non-empty. -/
theorem flood_unset_seed_counterexample :
    maskGet c6Mask 0 0 = false ∧ maskGet c6Mask 1 0 = true ∧
      flood c6Mask 0 0 5 = some c6Flood ∧ c6Flood ≠ emptyMask ∧
      maskGet c6Flood 1 0 = true := by
  refine ⟨by decide, by decide, by decide, by decide, by decide⟩

/-- C6 (amended): flooding from an unset in-range seed returns the union of
the connected components of the stencil cells four-adjacent to the seed —
a cell is in the result iff it is reachable from some stencil cell adjacent
to the seed; in particular the result is empty exactly when no stencil cell
is four-adjacent to the seed. -/
theorem flood_unset_seed {M : Mask} {x y fuel : Nat} {F : Mask}
    (hM : valid19 M) (hx : x ≤ 18) (hy : y ≤ 18) (hseed : ¬ cellMem M x y)
    (h : flood M x y fuel = some F) :
    ∀ a b, cellMem F a b ↔
      ∃ sa sb, Adj (x, y) (sa, sb) ∧ cellMem M sa sb ∧ Reach M sa sb a b := by
  rw [flood] at h
  cases fuel with
  | zero => cases h
  | succ fuel =>
    have h' : (if expandOnce (maskSet emptyMask x y) M = maskSet emptyMask x y
        then some (expandOnce (maskSet emptyMask x y) M)
        else expandAllF fuel (expandOnce (maskSet emptyMask x y) M) M) = some F := h
    have hne : expandOnce (maskSet emptyMask x y) M ≠ maskSet emptyMask x y := by
      intro heq
      have hx0 : cellMem (maskSet emptyMask x y) x y := (seed_mem x y x y hy).mpr ⟨rfl, rfl⟩
      rw [← heq] at hx0
      exact hseed (mem_of_expandOnce hx0).1
    rw [if_neg hne] at h'
    have hSchar : ∀ a b, cellMem (expandOnce (maskSet emptyMask x y) M) a b ↔
        (cellMem M a b ∧ Adj (x, y) (a, b)) := by
      intro a b
      constructor
      · intro hab
        obtain ⟨hst, hcase⟩ := mem_of_expandOnce hab
        refine ⟨hst, ?_⟩
        rcases hcase with hm | ⟨c, d, hadj, hmem⟩
        · obtain ⟨ha, hb⟩ := (seed_mem x y a b hy).mp hm
          rw [ha, hb] at hst
          exact absurd hst hseed
        · obtain ⟨hc, hd⟩ := (seed_mem x y c d hy).mp hmem
          rw [hc, hd] at hadj
          exact hadj
      · rintro ⟨hmem, hadj⟩
        have hb := (valid_mem_bounds hM hmem).2
        exact mem_expandOnce_adj hx hy (by omega)
          ((seed_mem x y x y hy).mpr ⟨rfl, rfl⟩) hadj hmem
    have hS : ∀ a b, cellMem (expandOnce (maskSet emptyMask x y) M) a b → cellMem M a b :=
      fun a b hab => ((hSchar a b).mp hab).1
    have hmain := expandAll_reach hM hS h'
    intro a b
    rw [hmain a b]
    constructor
    · rintro ⟨sa, sb, hsab, hreach⟩
      obtain ⟨hmem, hadj⟩ := (hSchar sa sb).mp hsab
      exact ⟨sa, sb, hadj, hmem, hreach⟩
    · rintro ⟨sa, sb, hadj, hmem, hreach⟩
      exact ⟨sa, sb, (hSchar sa sb).mpr ⟨hmem, hadj⟩, hreach⟩

theorem flood_unset_seed_witness :
    ∃ sa sb, Adj (0, 0) (sa, sb) ∧ cellMem c6Mask sa sb ∧ Reach c6Mask sa sb 1 0 :=
  (flood_unset_seed ⟨by decide, by decide⟩ (by omega) (by omega) (by decide)
    (show flood c6Mask 0 0 5 = some c6Flood from by decide) 1 0).mp (by decide)

section IterateLemmas

/-- The finite set of in-range cells of a board mask. -/
def toF (m : Mask) : Finset (Nat × Nat) :=
  (Finset.range 19 ×ˢ Finset.range 19).filter fun p => cellMem m p.1 p.2

theorem mem_toF {m : Mask} {p : Nat × Nat} :
    p ∈ toF m ↔ p.1 < 19 ∧ p.2 < 19 ∧ cellMem m p.1 p.2 := by
  rw [toF, Finset.mem_filter, Finset.mem_product, Finset.mem_range, Finset.mem_range]
  tauto

theorem toF_card_le (m : Mask) : (toF m).card ≤ 361 := by
  refine le_trans (Finset.card_le_card (Finset.filter_subset _ _)) ?_
  rw [Finset.card_product, Finset.card_range]

theorem valid_row_lt {M : Mask} (hM : valid19 M) (i : Nat) : rowOf M i < 2 ^ 19 := by
  rcases Nat.lt_or_ge i M.length with hi | hi
  · have : M.getD i 0 ∈ M := by
      rw [List.getD_eq_getElem?_getD, List.getElem?_eq_getElem hi]
      exact List.getElem_mem hi
    exact hM.2 _ this
  · rw [rowOf_ge_length hi]
    positivity

theorem rowOf_expandOnce_le (m st : Mask) (i : Nat) :
    rowOf (expandOnce m st) i ≤ rowOf st i := by
  rcases Nat.lt_or_ge i 19 with hlt | hge
  · rcases eq_or_ne i 0 with rfl | hne0
    · rw [rowOf_expandOnce_zero]
      exact Nat.and_le_right
    · rcases eq_or_ne i 18 with rfl | hne18
      · rw [rowOf_expandOnce_last]
        exact Nat.and_le_right
      · rw [rowOf_expandOnce_mid m st (by omega) (by omega)]
        exact Nat.and_le_right
  · rw [rowOf_expandOnce_ge m st hge]
    exact Nat.zero_le _

theorem mask_ext_of_cells {m m' : Mask} (hlen : m.length = 19) (hlen' : m'.length = 19)
    (hcells : ∀ a b, cellMem m a b ↔ cellMem m' a b) : m = m' := by
  apply List.ext_getElem (by rw [hlen, hlen'])
  intro n h1 h2
  have hr : rowOf m n = m[n] := by
    rw [rowOf, List.getD_eq_getElem?_getD, List.getElem?_eq_getElem h1]
    rfl
  have hr' : rowOf m' n = m'[n] := by
    rw [rowOf, List.getD_eq_getElem?_getD, List.getElem?_eq_getElem h2]
    rfl
  rw [← hr, ← hr']
  apply Nat.eq_of_testBit_eq
  intro i
  have h := hcells i n
  unfold cellMem at h
  cases hb1 : (rowOf m n).testBit i
  · cases hb2 : (rowOf m' n).testBit i
    · rfl
    · rw [hb1, hb2] at h
      simp at h
  · cases hb2 : (rowOf m' n).testBit i
    · rw [hb1, hb2] at h
      simp at h
    · rfl

theorem toF_inj {m m' : Mask} (hlen : m.length = 19) (hlen' : m'.length = 19)
    (hbd : ∀ i, rowOf m i < 2 ^ 19) (hbd' : ∀ i, rowOf m' i < 2 ^ 19)
    (h : toF m = toF m') : m = m' := by
  apply mask_ext_of_cells hlen hlen'
  intro a b
  by_cases hrange : a < 19 ∧ b < 19
  · have := Finset.ext_iff.mp h (a, b)
    rw [mem_toF, mem_toF] at this
    constructor
    · intro hm
      exact (this.mp ⟨hrange.1, hrange.2, hm⟩).2.2
    · intro hm
      exact (this.mpr ⟨hrange.1, hrange.2, hm⟩).2.2
  · have hfalse : ∀ mm : Mask, mm.length = 19 → (∀ i, rowOf mm i < 2 ^ 19) →
        ¬ cellMem mm a b := by
      intro mm hl hb hc
      unfold cellMem at hc
      rcases Nat.lt_or_ge b 19 with hblt | hbge
      · have ha : 19 ≤ a := by omega
        have : rowOf mm b < 2 ^ a :=
          lt_of_lt_of_le (hb b) (Nat.pow_le_pow_right (by omega) ha)
        rw [Nat.testBit_lt_two_pow this] at hc
        cases hc
      · rw [rowOf_ge_length (by omega : mm.length ≤ b)] at hc
        simp [Nat.zero_testBit] at hc
    constructor
    · intro hm
      exact absurd hm (hfalse m hlen hbd)
    · intro hm
      exact absurd hm (hfalse m' hlen' hbd')

theorem iterExpand_subset {seed M : Mask} (k : Nat) (hk : 1 ≤ k) :
    ∀ a b, cellMem (iterExpand seed M k) a b → cellMem M a b := by
  intro a b h
  cases k with
  | zero => omega
  | succ k => exact (mem_of_expandOnce h).1

theorem iterExpand_length {seed M : Mask} (k : Nat) (hk : 1 ≤ k) :
    (iterExpand seed M k).length = 19 := by
  cases k with
  | zero => omega
  | succ k => exact length_expandOnce _ _

theorem iterExpand_row_lt {seed M : Mask} (hM : valid19 M) (k : Nat) (hk : 1 ≤ k) (i : Nat) :
    rowOf (iterExpand seed M k) i < 2 ^ 19 := by
  cases k with
  | zero => omega
  | succ k => exact lt_of_le_of_lt (rowOf_expandOnce_le _ _ _) (valid_row_lt hM i)

theorem iterExpand_mono_succ {seed M : Mask} (hM : valid19 M) (k : Nat) (hk : 1 ≤ k) :
    ∀ a b, cellMem (iterExpand seed M k) a b → cellMem (iterExpand seed M (k + 1)) a b := by
  intro a b h
  have hMm := iterExpand_subset k hk a b h
  have hb := (valid_mem_bounds hM hMm).2
  exact mem_expandOnce_self (by omega) h hMm

end IterateLemmas

/-- Stencil of the C10 counterexample: a full top row and the single column
18 in every other row — a path of length 36 from the seed `(0, 0)` to the
far corner, so 19 iterations cannot reach the fixed point. -/
def c10Mask : Mask := (2 ^ 19 - 1) :: List.replicate 18 (2 ^ 18)

/-- C10 (counterexample): for the seed `(0, 0)` and the stencil `c10Mask`
(both satisfying the claim's hypotheses), the 19th iterate of `expand_once`
differs from the 20th — 19 iterations do not reach the fixed point. -/
theorem iterExpand_19_ne_20 :
    iterExpand (maskSet emptyMask 0 0) c10Mask 19 ≠
      iterExpand (maskSet emptyMask 0 0) c10Mask 20 ∧
    maskGet c10Mask 0 0 = true ∧ c10Mask.length = 19 ∧
    ((c10Mask.all fun r => decide (r < 2 ^ 19)) = true) := by
  refine ⟨by decide, by decide, by decide, by decide⟩

/-- C10 (amended): for every single-bit in-range seed and every well-formed
stencil, iterating `expand_once` 362 times reaches the fixed point: the
362nd iterate equals the 363rd, because from the first iterate on the
iterates grow monotonically inside the 361-cell stencil universe. -/
theorem iterExpand_fixed_by_362 {M : Mask} {x y : Nat} (hM : valid19 M)
    (hx : x ≤ 18) (hy : y ≤ 18) :
    iterExpand (maskSet emptyMask x y) M 362 = iterExpand (maskSet emptyMask x y) M 363 := by
  by_contra hne362
  have hprop : ∀ k, 1 ≤ k → k ≤ 362 →
      iterExpand (maskSet emptyMask x y) M k ≠ iterExpand (maskSet emptyMask x y) M (k + 1) := by
    intro k h1 h2 heq
    have hstab : ∀ j, k ≤ j →
        iterExpand (maskSet emptyMask x y) M j = iterExpand (maskSet emptyMask x y) M (j + 1) := by
      intro j hj
      induction j with
      | zero =>
        have : k = 0 := by omega
        omega
      | succ j ih =>
        rcases Nat.lt_or_ge k (j + 1) with hlt | hge
        · have hstep := ih (by omega)
          calc iterExpand (maskSet emptyMask x y) M (j + 1)
              = expandOnce (iterExpand (maskSet emptyMask x y) M j) M := rfl
            _ = expandOnce (iterExpand (maskSet emptyMask x y) M (j + 1)) M := by rw [hstep]
            _ = iterExpand (maskSet emptyMask x y) M (j + 2) := rfl
        · have hkj : k = j + 1 := by omega
          rw [← hkj]
          exact heq
    exact hne362 (hstab 362 (by omega))
  have hcard : ∀ k, k ≤ 362 →
      k ≤ (toF (iterExpand (maskSet emptyMask x y) M (k + 1))).card := by
    intro k
    induction k with
    | zero => intro _; omega
    | succ k ih =>
      intro hk
      have hprev := ih (by omega)
      have hneq := hprop (k + 1) (by omega) (by omega)
      have hlt : (toF (iterExpand (maskSet emptyMask x y) M (k + 1))).card <
          (toF (iterExpand (maskSet emptyMask x y) M (k + 1 + 1))).card := by
        apply Finset.card_lt_card
        rw [Finset.ssubset_iff_subset_ne]
        constructor
        · intro p hp
          rw [mem_toF] at hp ⊢
          exact ⟨hp.1, hp.2.1, iterExpand_mono_succ hM (k + 1) (by omega) p.1 p.2 hp.2.2⟩
        · intro htoF
          exact hneq (toF_inj (iterExpand_length (k + 1) (by omega))
            (iterExpand_length (k + 1 + 1) (by omega))
            (iterExpand_row_lt hM (k + 1) (by omega))
            (iterExpand_row_lt hM (k + 1 + 1) (by omega)) htoF)
      omega
  have h362 := hcard 362 (by omega)
  have hle := toF_card_le (iterExpand (maskSet emptyMask x y) M (362 + 1))
  omega

theorem iterExpand_fixed_by_362_witness :
    iterExpand (maskSet emptyMask 0 0) emptyMask 362 =
      iterExpand (maskSet emptyMask 0 0) emptyMask 363 :=
  iterExpand_fixed_by_362 ⟨by decide, by decide⟩ (by omega) (by omega)

/-- Group mask of the C3 failing input: a single stone at `(18, 0)`. -/
def c3Group : Mask := (2 ^ 18) :: List.replicate 18 0

/-- Opponent mask of the C3 failing input: stones at `(17, 0)` and
`(18, 1)` — the only two on-board neighbours of `(18, 0)`. -/
def c3Opp : Mask := (2 ^ 17) :: (2 ^ 18) :: List.replicate 17 0

/-- C3 (failing input): the group `{(18, 0)}` is fully surrounded by
opponent stones and board edges — no in-range intersection adjacent to a
group stone is empty — yet `has_a_liberty` returns `true`: the unmasked row
expansion creates a phantom liberty at bit position 19, outside the board. -/
theorem has_a_liberty_phantom_column18 :
    hasALiberty c3Group c3Opp = true ∧
    maskGet c3Group 18 0 = true ∧
    ((List.range 19).all fun a => (List.range 19).all fun b =>
      !(maskGet c3Group a b) || (decide (a = 18) && decide (b = 0))) = true ∧
    ((List.range 19).all fun a => (List.range 19).all fun b =>
      !(decide (Adj (a, b) (18, 0)) && !(maskGet c3Group a b) && !(maskGet c3Opp a b))) = true := by
  refine ⟨by decide, by decide, by decide, by decide⟩

/-- `impl Shl for MaskRow` of `mask_row.rs`: a raw `u32` left shift with no
masking back to 19 bits. -/
def rowShl (r k : Nat) : Nat := (r <<< k) % wordSize

/-- C5 (counterexample): `MaskRow::expand` and the left shift do not keep
bits above position 18 clear — a set bit 18 reappears at position 19
instead of falling off. -/
theorem rowExpand_shl_leak :
    Nat.testBit (rowExpand (2 ^ 18)) 19 = true ∧ rowShl (2 ^ 18) 1 = 2 ^ 19 := by
  refine ⟨by decide, by decide⟩

/-- C5 (amended): `get`/`set`/`unset`, AND, OR and right shift preserve the
19-bit row invariant, but `expand()` and the left shift do not mask their
result: a row with bit 18 set expands (or shifts) to a value with bit 19
set, and the invariant is only restored by callers that AND the result with
a 19-bit stencil row. -/
theorem maskRow_invariant_amended :
    (∀ r, r < 2 ^ 19 → ∀ i, i ≤ 18 → rowSet r i < 2 ^ 19 ∧ rowUnset r i < 2 ^ 19) ∧
    (∀ r s, r < 2 ^ 19 → s < 2 ^ 19 → (r ||| s) < 2 ^ 19 ∧ (r &&& s) < 2 ^ 19) ∧
    (∀ r, r < 2 ^ 19 → r >>> 1 < 2 ^ 19) ∧
    (∀ r, Nat.testBit r 18 = true → Nat.testBit (rowExpand r) 19 = true) ∧
    (∀ r, Nat.testBit r 18 = true → Nat.testBit (rowShl r 1) 19 = true) := by
  refine ⟨?_, ?_, ?_, ?_, ?_⟩
  · intro r hr i hi
    constructor
    · rw [rowSet]
      refine Nat.or_lt_two_pow hr ?_
      rw [Nat.one_shiftLeft]
      exact Nat.pow_lt_pow_right (by omega) (by omega)
    · rw [rowUnset]
      exact lt_of_le_of_lt Nat.and_le_left hr
  · intro r s hr hs
    exact ⟨Nat.or_lt_two_pow hr hs, lt_of_le_of_lt Nat.and_le_left hr⟩
  · intro r hr
    rw [Nat.shiftRight_eq_div_pow]
    exact lt_of_le_of_lt (Nat.div_le_self _ _) hr
  · intro r hb
    refine testBit_rowExpand.mpr (Or.inl ⟨by omega, by omega, ?_⟩)
    simpa using hb
  · intro r hb
    rw [rowShl]
    have h : wordSize = 2 ^ 32 := rfl
    rw [h, Nat.testBit_mod_two_pow, Nat.testBit_shiftLeft]
    simpa using hb

theorem maskRow_invariant_amended_witness :
    rowSet (2 ^ 18) 0 < 2 ^ 19 ∧ Nat.testBit (rowExpand (2 ^ 18)) 19 = true :=
  ⟨(maskRow_invariant_amended.1 (2 ^ 18) (by decide) 0 (by omega)).1,
    maskRow_invariant_amended.2.2.2.1 (2 ^ 18) (by decide)⟩

end GoRules
